import Mathlib

/-!
Verification of the external binary resolution, sandboxed ad-hoc execution and
codegen-export subsystem of the repository.

Shallow embedding conventions:
* file trees (engine digests) are association lists from path to file content;
* the engine intrinsics that are not part of the sampled sources
  (digest merging, binary search on disk, path-expression resolution,
  output capture) are modelled from the spec, each with a doc comment
  saying so;
* the Python rules present in the sources (`export_codegen`, `find_rustup`,
  `rust_binary_path`, `proto_path_to_py_module`, the ad-hoc target fields)
  are translated directly.
-/

namespace Pants

/-! ## File trees (content-addressed digests)

A digest is modelled as an association list mapping a path to the bytes of the
file stored there (bytes modelled as `String`).  Real digests are maps, so the
paths of a well-formed tree are distinct. -/

abbrev Tree := List (String × String)

/-- First content stored for path `p` in tree `t`, if any. -/
def lookupPath (t : Tree) (p : String) : Option String :=
  (t.find? (fun e => e.1 == p)).map (fun e => e.2)

/-- A tree is well formed when no path occurs twice. -/
def WfTree (t : Tree) : Prop := (t.map Prod.fst).Nodup

instance decidableWfTree (t : Tree) : Decidable (WfTree t) :=
  inferInstanceAs (Decidable ((t.map Prod.fst).Nodup))

/-! ## TreeMerger

Modelled from the spec: the engine intrinsic `merge_digests`
(`pants.engine.intrinsics`, not among the sampled sources) merges a sequence
of trees, and for every path present in more than one input tree the content
must be byte-identical across all occurrences, otherwise the merge fails with
an error naming the conflicting path and the two conflicting producers
(identified here by their positions in the input sequence). -/

structure ConflictingCodegenOutput where
  path : String
  producer1 : Nat
  producer2 : Nat
deriving Repr, DecidableEq

/-- Does entry `e` of one tree clash with the content stored in `t2`? -/
def entryConflicts (t2 : Tree) (e : String × String) : Bool :=
  match lookupPath t2 e.1 with
  | some c => c != e.2
  | none => false

/-- First conflicting path between the trees at positions `i` and `j`. -/
def pairConflict (i j : Nat) (t1 t2 : Tree) : Option ConflictingCodegenOutput :=
  (t1.find? (entryConflicts t2)).map (fun e => ⟨e.1, i, j⟩)

/-- First conflict between the tree at position `i` and any of the trees
numbered from `j` on. -/
def scanConflict (i : Nat) (t : Tree) : Nat → List Tree → Option ConflictingCodegenOutput
  | _, [] => none
  | j, u :: rest =>
    match pairConflict i j t u with
    | some c => some c
    | none => scanConflict i t (j + 1) rest

/-- First conflict among the trees numbered from `i` on. -/
def findConflict : Nat → List Tree → Option ConflictingCodegenOutput
  | _, [] => none
  | i, t :: rest =>
    match scanConflict i t (i + 1) rest with
    | some c => some c
    | none => findConflict (i + 1) rest

/-- Modelled from the spec: `merge_digests` fails on the first pair of trees
carrying different content at the same path, and otherwise yields the union
of the inputs. -/
def mergeDigests (trees : List Tree) : Except ConflictingCodegenOutput Tree :=
  match findConflict 0 trees with
  | some c => Except.error c
  | none => Except.ok trees.flatten

/-- No two input trees disagree on the content of a shared path. -/
def NoConflict (trees : List Tree) : Prop :=
  ∀ t1 ∈ trees, ∀ t2 ∈ trees, ∀ p c1 c2,
    lookupPath t1 p = some c1 → lookupPath t2 p = some c2 → c1 = c2

/-- Two trees agree on every shared path. -/
def PairOk (t1 t2 : Tree) : Prop :=
  ∀ p c1 c2, lookupPath t1 p = some c1 → lookupPath t2 p = some c2 → c1 = c2

/-! ## The `export-codegen` goal
(`pants.backend.codegen.export_codegen_goal.export_codegen`)

Sources-field types and generator input/output types are identified by name;
`isinstance(sources, input_type)` is membership of the input type in the
ancestry of the field's runtime type. -/

/-- A target's `SourcesField` instance: an identity plus the ancestry of its
runtime type. -/
structure SourcesFieldInst where
  fieldId : Nat
  instanceOf : List String
deriving Repr, DecidableEq

/-- A member of the `GenerateSourcesRequest` union: its `input` and `output`
sources-field types and its `exportable` flag. -/
structure GenerateSourcesRequestType where
  input : String
  output : String
  exportable : Bool
deriving Repr, DecidableEq

/-- A target, as `export_codegen` sees it: it either has a `SourcesField`
or it does not. -/
structure Target where
  sources : Option SourcesFieldInst
deriving Repr, DecidableEq

/-- A registered target type: its alias, and which sources-field types its
class has (`class_has_field`). -/
structure TargetType where
  aliasName : String
  hasFieldOf : String → Bool

/-- `inputs_to_outputs`: the `(input, output)` pairs of the exportable
generator request types, in registration order. -/
def exportableInputsToOutputs (reqs : List GenerateSourcesRequestType) :
    List (String × String) :=
  (reqs.filter (fun r => r.exportable)).map (fun r => (r.input, r.output))

/-- `codegen_sources_fields_with_output`: for each target with a sources
field, every `(sources, output_type)` pair whose input type matches the
field. -/
def codegenSourcesWithOutput :
    List Target → List (String × String) → List (SourcesFieldInst × String)
  | [], _ => []
  | tgt :: rest, ios =>
    (match tgt.sources with
     | none => []
     | some s =>
       ios.filterMap (fun io =>
         if io.1 ∈ s.instanceOf then some (s, io.2) else none))
    ++ codegenSourcesWithOutput rest ios

/-- Lexicographic comparison of code-point lists (Python string ordering). -/
def charListLe : List Char → List Char → Bool
  | [], _ => true
  | _ :: _, [] => false
  | a :: as, b :: bs =>
    if a < b then true else if b < a then false else charListLe as bs

/-- Python string `<=`. -/
def strLe (a b : String) : Bool := charListLe a.data b.data

/-- Insert into a sorted list of strings. -/
def insertSorted (a : String) : List String → List String
  | [] => [a]
  | b :: rest => if strLe a b then a :: b :: rest else b :: insertSorted a rest

/-- Python `sorted` on strings (insertion sort). -/
def sortStrings (l : List String) : List String := l.foldr insertSorted []

/-- `codegen_targets`: the sorted, de-duplicated aliases of the registered
target types having one of the generator input fields; this is the list the
no-match diagnostic prints. -/
def codegenTargetAliases (registeredTypes : List TargetType)
    (ios : List (String × String)) : List String :=
  sortStrings ((registeredTypes.filterMap (fun tt =>
      if ios.any (fun io => tt.hasFieldOf io.1) then some tt.aliasName
      else none)).dedup)

/-- `dist_dir.relpath / "codegen"`: path join. -/
def pathJoin (a b : String) : String := if a = "" then b else a ++ "/" ++ b

/-- Outcome of the `export-codegen` goal: the goal exit code, what was
written to the workspace (destination prefix and digest), and the warning
diagnostic (the listed codegen target aliases), if any. -/
structure ExportCodegenResult where
  exitCode : Nat
  written : Option (String × Tree)
  warning : Option (List String)
deriving Repr

/-- The digests produced by hydrating every matching
`(sources, output_type)` pair, in order. -/
def exportProducedTrees (targets : List Target)
    (reqs : List GenerateSourcesRequestType)
    (hydrate : SourcesFieldInst → String → Tree) : List Tree :=
  (codegenSourcesWithOutput targets (exportableInputsToOutputs reqs)).map
    (fun so => hydrate so.1 so.2)

/-- The `export_codegen` goal rule, with the engine collaborators abstracted:
`hydrate` stands for `hydrate_sources` (one output tree per matching pair)
and the merge is `mergeDigests`.  Mirrors
`pants.backend.codegen.export_codegen_goal.export_codegen`. -/
def export_codegen (targets : List Target)
    (allGenerateRequestTypes : List GenerateSourcesRequestType)
    (registeredTypes : List TargetType)
    (hydrate : SourcesFieldInst → String → Tree)
    (distDirRelpath : String) : Except ConflictingCodegenOutput ExportCodegenResult :=
  let ios := exportableInputsToOutputs allGenerateRequestTypes
  let pairs := codegenSourcesWithOutput targets ios
  if pairs.isEmpty then
    Except.ok ⟨0, none, some (codegenTargetAliases registeredTypes ios)⟩
  else
    match mergeDigests (pairs.map (fun so => hydrate so.1 so.2)) with
    | Except.error c => Except.error c
    | Except.ok merged =>
      Except.ok ⟨0, some (pathJoin distDirRelpath "codegen", merged), none⟩

theorem lookupPath_some (t : Tree) (p : String) (c : String)
    (h : lookupPath t p = some c) : ∃ e ∈ t, e.1 = p ∧ e.2 = c := by
  unfold lookupPath at h
  rcases Option.map_eq_some'.mp h with ⟨e, hfind, hev⟩
  exact ⟨e, List.mem_of_find?_eq_some hfind,
    by simpa using List.find?_some hfind, hev⟩

theorem lookupPath_of_mem (t : Tree) (e : String × String)
    (hmem : e ∈ t) (hwf : WfTree t) : lookupPath t e.1 = some e.2 := by
  induction t with
  | nil => cases hmem
  | cons f rest ih =>
    rcases List.mem_cons.mp hmem with rfl | hmem
    · simp [lookupPath, List.find?]
    · have hwf' : WfTree rest := by
        have := hwf
        simp only [WfTree, List.map_cons, List.nodup_cons] at this
        exact this.2
      have hne : f.1 ≠ e.1 := by
        intro hEq
        have : f.1 ∈ rest.map Prod.fst := by
          rw [hEq]; exact List.mem_map_of_mem Prod.fst hmem
        have := hwf
        simp only [WfTree, List.map_cons, List.nodup_cons] at this
        exact this.1 ‹f.1 ∈ rest.map Prod.fst›
      have : (f.1 == e.1) = false := by
        simpa using hne
      simp only [lookupPath, List.find?, this]
      exact ih hmem hwf'

theorem entryConflicts_false_iff (t2 : Tree) (e : String × String) :
    entryConflicts t2 e = false ↔
      ∀ c, lookupPath t2 e.1 = some c → c = e.2 := by
  unfold entryConflicts
  cases h : lookupPath t2 e.1 with
  | none => simp [h]
  | some c =>
    simp only [h, bne_eq_false_iff_eq]
    constructor
    · rintro rfl c' hc'; cases hc'; rfl
    · intro hall; exact hall c rfl

theorem pairConflict_none_iff (i j : Nat) (t1 t2 : Tree) :
    pairConflict i j t1 t2 = none ↔
      ∀ e ∈ t1, entryConflicts t2 e = false := by
  unfold pairConflict
  rw [Option.map_eq_none', List.find?_eq_none]
  simp

theorem pairOk_of_all_entries (t1 t2 : Tree)
    (h : ∀ e ∈ t1, entryConflicts t2 e = false) : PairOk t1 t2 := by
  intro p c1 c2 h1 h2
  rcases lookupPath_some t1 p c1 h1 with ⟨e, hmem, hep, hec⟩
  have := (entryConflicts_false_iff t2 e).mp (h e hmem) c2 (by rw [hep]; exact h2)
  rw [← hec, this]

theorem all_entries_of_pairOk (t1 t2 : Tree) (hwf : WfTree t1)
    (h : PairOk t1 t2) : ∀ e ∈ t1, entryConflicts t2 e = false := by
  intro e hmem
  rw [entryConflicts_false_iff]
  intro c hc
  exact (h e.1 e.2 c (lookupPath_of_mem t1 e hmem hwf) hc).symm

theorem pairConflict_some (i j : Nat) (t1 t2 : Tree) (c : ConflictingCodegenOutput)
    (hwf : WfTree t1) (h : pairConflict i j t1 t2 = some c) :
    c.producer1 = i ∧ c.producer2 = j ∧
      ∃ c1 c2, lookupPath t1 c.path = some c1 ∧ lookupPath t2 c.path = some c2 ∧ c1 ≠ c2 := by
  unfold pairConflict at h
  rcases Option.map_eq_some'.mp h with ⟨e, hfind, hev⟩
  have hconf : entryConflicts t2 e = true := List.find?_some hfind
  have hmem : e ∈ t1 := List.mem_of_find?_eq_some hfind
  unfold entryConflicts at hconf
  cases h2 : lookupPath t2 e.1 with
  | none => rw [h2] at hconf; simp at hconf
  | some c2 =>
    rw [h2] at hconf
    have hne : c2 ≠ e.2 := by simpa using hconf
    subst hev
    exact ⟨rfl, rfl, e.2, c2, lookupPath_of_mem t1 e hmem hwf, h2, fun hEq => hne hEq.symm⟩

theorem pairOk_of_find_none (t1 t2 : Tree)
    (h : t1.find? (entryConflicts t2) = none) : PairOk t1 t2 :=
  pairOk_of_all_entries t1 t2 (fun e he => by
    have := List.find?_eq_none.mp h e he
    simpa using this)

theorem pairOk_symm (t1 t2 : Tree) (h : PairOk t1 t2) : PairOk t2 t1 :=
  fun p c1 c2 h1 h2 => (h p c2 c1 h2 h1).symm

theorem scanConflict_none_iff (i : Nat) (t : Tree) (j : Nat) (us : List Tree) :
    scanConflict i t j us = none ↔ ∀ u ∈ us, t.find? (entryConflicts u) = none := by
  induction us generalizing j with
  | nil => simp [scanConflict]
  | cons u us ih =>
    unfold scanConflict
    cases hp : pairConflict i j t u with
    | some c =>
      simp only [List.mem_cons]
      unfold pairConflict at hp
      rcases Option.map_eq_some'.mp hp with ⟨e, hfind, _⟩
      constructor
      · intro h; cases h
      · intro hall
        have := hall u (Or.inl rfl)
        rw [this] at hfind; cases hfind
    | none =>
      simp only [ih (j + 1), List.mem_cons]
      constructor
      · intro hall v hv
        rcases hv with rfl | hv
        · unfold pairConflict at hp
          exact Option.map_eq_none'.mp hp
        · exact hall v hv
      · intro hall v hv; exact hall v (Or.inr hv)

theorem findConflict_none_iff (i : Nat) (ts : List Tree) :
    findConflict i ts = none ↔
      ts.Pairwise (fun t u => t.find? (entryConflicts u) = none) := by
  induction ts generalizing i with
  | nil => simp [findConflict]
  | cons t rest ih =>
    unfold findConflict
    cases hs : scanConflict i t (i + 1) rest with
    | some c =>
      constructor
      · intro h; cases h
      · intro h
        rcases List.pairwise_cons.mp h with ⟨hhead, _⟩
        have := (scanConflict_none_iff i t (i + 1) rest).mpr hhead
        rw [this] at hs; cases hs
    | none =>
      rw [List.pairwise_cons, ih (i + 1)]
      constructor
      · intro h
        exact ⟨(scanConflict_none_iff i t (i + 1) rest).mp hs, h⟩
      · intro h; exact h.2

theorem noConflict_of_pairwise (ts : List Tree)
    (h : ts.Pairwise (fun t u => t.find? (entryConflicts u) = none)) :
    NoConflict ts := by
  induction ts with
  | nil => intro t1 h1; cases h1
  | cons t rest ih =>
    rcases List.pairwise_cons.mp h with ⟨hhead, htail⟩
    intro t1 h1 t2 h2 p c1 c2 hc1 hc2
    rcases List.mem_cons.mp h1 with h1e | h1m
    · rcases List.mem_cons.mp h2 with h2e | h2m
      · rw [h1e] at hc1; rw [h2e] at hc2; rw [hc1] at hc2; cases hc2; rfl
      · rw [h1e] at hc1
        exact pairOk_of_find_none t t2 (hhead t2 h2m) p c1 c2 hc1 hc2
    · rcases List.mem_cons.mp h2 with h2e | h2m
      · rw [h2e] at hc2
        exact pairOk_symm t t1 (pairOk_of_find_none t t1 (hhead t1 h1m)) p c1 c2 hc1 hc2
      · exact ih htail t1 h1m t2 h2m p c1 c2 hc1 hc2

theorem pairwise_of_noConflict (ts : List Tree) (hwf : ∀ t ∈ ts, WfTree t)
    (h : NoConflict ts) :
    ts.Pairwise (fun t u => t.find? (entryConflicts u) = none) := by
  induction ts with
  | nil => constructor
  | cons t rest ih =>
    constructor
    · intro u hu
      apply List.find?_eq_none.mpr
      intro e he
      have hok : PairOk t u := fun p c1 c2 h1 h2 =>
        h t (List.mem_cons_self t rest) u (List.mem_cons_of_mem t hu) p c1 c2 h1 h2
      have := all_entries_of_pairOk t u (hwf t (List.mem_cons_self t rest)) hok e he
      simp [this]
    · exact ih (fun x hx => hwf x (List.mem_cons_of_mem t hx))
        (fun t1 h1 t2 h2 => h t1 (List.mem_cons_of_mem t h1) t2 (List.mem_cons_of_mem t h2))

theorem scanConflict_some (i : Nat) (t : Tree) (j : Nat) (us : List Tree)
    (c : ConflictingCodegenOutput) (h : scanConflict i t j us = some c) :
    c.producer1 = i ∧ j ≤ c.producer2 ∧
      ∃ u, us[c.producer2 - j]? = some u ∧ pairConflict i c.producer2 t u = some c := by
  induction us generalizing j with
  | nil => simp [scanConflict] at h
  | cons u us ih =>
    unfold scanConflict at h
    cases hp : pairConflict i j t u with
    | some c0 =>
      rw [hp] at h
      cases h
      unfold pairConflict at hp
      rcases Option.map_eq_some'.mp hp with ⟨e, _, hev⟩
      have hfields : c.producer1 = i ∧ c.producer2 = j := by
        rw [← hev]; exact ⟨rfl, rfl⟩
      refine ⟨hfields.1, le_of_eq hfields.2.symm, u, ?_, ?_⟩
      · rw [hfields.2, Nat.sub_self]; simp
      · rw [hfields.2]; exact hp
    | none =>
      rw [hp] at h
      obtain ⟨h1, h2, u', hget, hpair⟩ := ih (j + 1) h
      refine ⟨h1, by omega, u', ?_, hpair⟩
      have hstep : c.producer2 - j = (c.producer2 - (j + 1)) + 1 := by omega
      rw [hstep, List.getElem?_cons_succ]
      exact hget

theorem findConflict_some (i : Nat) (ts : List Tree) (c : ConflictingCodegenOutput)
    (h : findConflict i ts = some c) :
    i ≤ c.producer1 ∧ c.producer1 < c.producer2 ∧
      ∃ t u, ts[c.producer1 - i]? = some t ∧ ts[c.producer2 - i]? = some u ∧
        pairConflict c.producer1 c.producer2 t u = some c := by
  induction ts generalizing i with
  | nil => simp [findConflict] at h
  | cons t rest ih =>
    unfold findConflict at h
    cases hs : scanConflict i t (i + 1) rest with
    | some c0 =>
      rw [hs] at h
      cases h
      obtain ⟨hp1, hle, u, hget, hpair⟩ := scanConflict_some i t (i + 1) rest c hs
      refine ⟨le_of_eq hp1.symm, by omega, t, u, ?_, ?_, ?_⟩
      · rw [hp1, Nat.sub_self]; simp
      · have hstep : c.producer2 - i = (c.producer2 - (i + 1)) + 1 := by omega
        rw [hstep, List.getElem?_cons_succ]
        exact hget
      · rw [hp1]; exact hpair
    | none =>
      rw [hs] at h
      obtain ⟨h1, h2, t', u', hg1, hg2, hpair⟩ := ih (i + 1) h
      refine ⟨by omega, h2, t', u', ?_, ?_, hpair⟩
      · have hstep : c.producer1 - i = (c.producer1 - (i + 1)) + 1 := by omega
        rw [hstep, List.getElem?_cons_succ]
        exact hg1
      · have hstep : c.producer2 - i = (c.producer2 - (i + 1)) + 1 := by omega
        rw [hstep, List.getElem?_cons_succ]
        exact hg2

theorem mergeDigests_ok_iff (trees : List Tree) (hwf : ∀ t ∈ trees, WfTree t) :
    mergeDigests trees = Except.ok trees.flatten ↔ NoConflict trees := by
  unfold mergeDigests
  cases hf : findConflict 0 trees with
  | some c =>
    constructor
    · intro h; cases h
    · intro h
      have := (findConflict_none_iff 0 trees).mpr (pairwise_of_noConflict trees hwf h)
      rw [this] at hf; cases hf
  | none =>
    constructor
    · intro _
      exact noConflict_of_pairwise trees ((findConflict_none_iff 0 trees).mp hf)
    · intro _; rfl

theorem mergeDigests_error_conflict (trees : List Tree) (hwf : ∀ t ∈ trees, WfTree t)
    (c : ConflictingCodegenOutput) (h : mergeDigests trees = Except.error c) :
    c.producer1 < c.producer2 ∧
      ∃ t1 t2, trees[c.producer1]? = some t1 ∧ trees[c.producer2]? = some t2 ∧
        ∃ b1 b2, lookupPath t1 c.path = some b1 ∧ lookupPath t2 c.path = some b2 ∧
          b1 ≠ b2 := by
  unfold mergeDigests at h
  cases hf : findConflict 0 trees with
  | none => rw [hf] at h; cases h
  | some c0 =>
    rw [hf] at h
    cases h
    obtain ⟨_, hlt, t1, t2, hg1, hg2, hpair⟩ := findConflict_some 0 trees c hf
    rw [Nat.sub_zero] at hg1 hg2
    have hmem1 : t1 ∈ trees := by
      have := List.getElem?_eq_some.mp hg1
      rcases this with ⟨hbound, heq⟩
      exact heq ▸ List.getElem_mem hbound
    obtain ⟨_, _, b1, b2, hb1, hb2, hne⟩ :=
      pairConflict_some c.producer1 c.producer2 t1 t2 c (hwf t1 hmem1) hpair
    exact ⟨hlt, t1, t2, hg1, hg2, b1, b2, hb1, hb2, hne⟩

/-- C2: merging a collection of input trees succeeds (yielding their union)
exactly when every path present in more than one tree carries byte-identical
content in all of them — identical content at the same path is not a
conflict — and whenever the merge fails, the `ConflictingCodegenOutput`
error names a path and two distinct producers whose trees really do carry
different content at that path. -/
theorem mergeDigests_conflict_spec (trees : List Tree)
    (hwf : ∀ t ∈ trees, WfTree t) :
    (mergeDigests trees = Except.ok trees.flatten ↔ NoConflict trees) ∧
    (∀ c, mergeDigests trees = Except.error c →
      c.producer1 < c.producer2 ∧
        ∃ t1 t2, trees[c.producer1]? = some t1 ∧ trees[c.producer2]? = some t2 ∧
          ∃ b1 b2, lookupPath t1 c.path = some b1 ∧ lookupPath t2 c.path = some b2 ∧
            b1 ≠ b2) :=
  ⟨mergeDigests_ok_iff trees hwf,
   fun c h => mergeDigests_error_conflict trees hwf c h⟩

/-- Witness for C2: two trees with identical content at `a/b.txt` merge
successfully, and a differing pair makes the merge fail naming `a/b.txt`. -/
theorem mergeDigests_conflict_spec_witness :
    (mergeDigests [[("a/b.txt", "x")], [("a/b.txt", "x")]] =
        Except.ok [("a/b.txt", "x"), ("a/b.txt", "x")] ↔
      NoConflict [[("a/b.txt", "x")], [("a/b.txt", "x")]]) ∧
    (∀ c, mergeDigests [[("a/b.txt", "x")], [("a/b.txt", "x")]] = Except.error c →
      c.producer1 < c.producer2 ∧
        ∃ t1 t2,
          [[("a/b.txt", "x")], [("a/b.txt", "x")]][c.producer1]? = some t1 ∧
          [[("a/b.txt", "x")], [("a/b.txt", "x")]][c.producer2]? = some t2 ∧
          ∃ b1 b2, lookupPath t1 c.path = some b1 ∧ lookupPath t2 c.path = some b2 ∧
            b1 ≠ b2) :=
  mergeDigests_conflict_spec [[("a/b.txt", "x")], [("a/b.txt", "x")]] (by
    intro t ht
    simp only [List.mem_cons, List.not_mem_nil, or_false] at ht
    rcases ht with rfl | rfl <;> simp [WfTree])

/-- A differing pair of trees makes the merge fail naming the shared path
`a/b.txt` and the two producers. -/
theorem mergeDigests_differing_pair_fails :
    mergeDigests [[("a/b.txt", "x")], [("a/b.txt", "y")]] =
      Except.error ⟨"a/b.txt", 0, 1⟩ := by
  rfl

/-! ## BinaryResolver
Modelled from the spec: `find_binary` / `BinaryPathRequest`
(`pants.core.util_rules.system_binaries`, not among the sampled sources):
iterate the candidate directories in request order, keep the entries whose
name matches the requested binary name exactly, run the fingerprint test on
each candidate when one is configured, and return the first acceptable
candidate; fail with `NoBinaryFound` carrying the name and every searched
directory. -/

structure BinaryPathTest where
  args : List String
deriving Repr, DecidableEq

structure BinaryPathRequest where
  binary_name : String
  search_path : List String
  test : Option BinaryPathTest
deriving Repr, DecidableEq

/-- The machine, as binary resolution observes it: which directory holds an
entry of which name, and whether running a candidate with the test arguments
produces output matching the configured pattern. -/
structure ResolverEnv where
  hasEntry : String → String → Bool
  fingerprintOk : String → List String → Bool

structure NoBinaryFound where
  binary_name : String
  searched : List String
deriving Repr, DecidableEq

/-- The candidate paths of a request, in search order. -/
def candidatePaths (env : ResolverEnv) (req : BinaryPathRequest) : List String :=
  req.search_path.filterMap (fun d =>
    if env.hasEntry d req.binary_name then some (d ++ "/" ++ req.binary_name)
    else none)

/-- A candidate passes when no fingerprint test is configured, or when its
fingerprint output matches the pattern. -/
def candidateAccepted (env : ResolverEnv) (req : BinaryPathRequest)
    (p : String) : Bool :=
  match req.test with
  | none => true
  | some t => env.fingerprintOk p t.args

/-- Modelled from the spec: `find_binary` returns the first candidate (in
directory-then-listing order) accepted by the fingerprint test, else
`NoBinaryFound`. -/
def find_binary (env : ResolverEnv) (req : BinaryPathRequest) :
    Except NoBinaryFound String :=
  match (candidatePaths env req).find? (candidateAccepted env req) with
  | some p => Except.ok p
  | none => Except.error ⟨req.binary_name, req.search_path⟩

/-! ## ToolchainBinaryResolver
(`pants.backend.rust.util_rules.toolchains.find_rustup` and
`rust_binary_path`) -/

/-- `os.path.basename`: everything after the last slash. -/
def pyBasename (p : String) : String :=
  String.mk ((p.data.reverse.takeWhile (fun c => c ≠ '/')).reverse)

/-- `os.path.dirname`: everything up to the last slash, with trailing
slashes stripped unless the result is all slashes. -/
def pyDirname (p : String) : String :=
  let head := (p.data.reverse.dropWhile (fun c => c ≠ '/')).reverse
  if head.isEmpty || head.all (fun c => c = '/') then String.mk head
  else String.mk ((head.reverse.dropWhile (fun c => c = '/')).reverse)

/-- The environment the two Rust toolchain rules observe: the resolver's
machine, the configured rustup search paths, the configured toolchain, and
the stdout produced by `rustup which --toolchain=<t> <binary>` for a given
rustup path. -/
structure RustEnv where
  resolver : ResolverEnv
  rustupSearchPaths : List String
  toolchain : String
  whichStdout : String → String → String → String

/-- `find_rustup`: resolve the `rustup` binary over the configured search
paths with a `-V` fingerprint test. -/
def find_rustup (env : RustEnv) : Except NoBinaryFound String :=
  find_binary env.resolver ⟨"rustup", env.rustupSearchPaths, some ⟨["-V"]⟩⟩

/-- `rust_binary_path`: invoke `rustup which --toolchain=<toolchain>
<binary>`, strip the stdout, and resolve the stripped path's basename over
exactly its containing directory. -/
def rust_binary_path (env : RustEnv) (binary : String) :
    Except NoBinaryFound String :=
  match find_rustup env with
  | Except.error e => Except.error e
  | Except.ok rustupPath =>
    let full := (env.whichStdout rustupPath env.toolchain binary).trim
    find_binary env.resolver ⟨pyBasename full, [pyDirname full], none⟩

/-! ## SandboxBuilder path resolution

Modelled from the spec: the workdir / root-output-directory expression
resolution documented on `AdhocToolWorkdirField` and
`AdhocToolOutputRootDirField` (the resolving code lives in
`pants.backend.adhoc.adhoc_process_support`, not among the sampled sources).
Paths are represented relative to the build root `R`; the empty string is
the root itself. -/

/-- Character-level `str.startswith`. -/
def strStartsWith (p pre : String) : Bool := pre.data.isPrefixOf p.data

/-- Character-level slice `p[n:]`. -/
def strDrop (p : String) (n : Nat) : String := String.mk (p.data.drop n)

/-- Join two root-relative path expressions. -/
def joinPath (b s : String) : String :=
  if b = "" then s else if s = "" then b else b ++ "/" ++ s

/-- Modelled from the spec: resolve a raw workdir / output-root expression
`p` against the declaring BUILD file's directory `b`; the result is
relative to the build root. -/
def parseRelativeDirectory (p : String) (b : String) : String :=
  if p = "." then b
  else if strStartsWith p "./" then joinPath b (strDrop p 2)
  else if p = "" ∨ p = "/" then ""
  else if strStartsWith p "/" then strDrop p 1
  else p

/-- Weight of one path segment when checking for build-root escape:
`..` pops a directory, `.` and empty segments are neutral, anything else
pushes one. -/
def segValue (s : String) : Int :=
  if s = ".." then -1 else if s = "." ∨ s = "" then 0 else 1

/-- Normalize segments against a stack; `none` when a `..` pops past the
build root. -/
def normSegs : List String → List String → Option (List String)
  | [], acc => some acc.reverse
  | s :: rest, acc =>
    if s = ".." then
      match acc with
      | [] => none
      | _ :: t => normSegs rest t
    else if s = "." ∨ s = "" then normSegs rest acc
    else normSegs rest (s :: acc)

/-- Split a character list on `/`, accumulating the current (reversed)
segment. -/
def splitSegsAux : List Char → List Char → List String
  | [], cur => [String.mk cur.reverse]
  | c :: rest, cur =>
    if c = '/' then String.mk cur.reverse :: splitSegsAux rest []
    else splitSegsAux rest (c :: cur)

/-- The `/`-separated segments of a path expression. -/
def splitSegs (p : String) : List String := splitSegsAux p.data []

/-- Modelled from the spec: workdir / output-root resolution rejects with
`PathEscapesBuildRoot` any resolved path whose `..` segments escape the
build root, and keeps the resolved path otherwise. -/
def resolveWorkdir (p b : String) : Except String String :=
  let r := parseRelativeDirectory p b
  match normSegs (splitSegs r) [] with
  | none => Except.error "PathEscapesBuildRoot"
  | some _ => Except.ok r

/-- A segment list escapes the build root when some prefix of it has more
`..` steps than real steps. -/
def EscapesRoot (segs : List String) : Prop :=
  ∃ n, (((segs.take n).map segValue).sum : Int) < 0

/-! ## Sandbox tree composition

Modelled from the spec and the field documentation of
`AdhocToolExecutionDependenciesField` / `AdhocToolOutputDependenciesField`:
the sandbox is the merge of the execution-dependency tree at the sandbox
root and each runnable dependency's tree under a directory named after the
dependency; when the execution-dependencies field is `None` (absent), the
output-dependency tree is merged at the root instead — the deprecated
fallback. -/

/-- A tree placed under directory `d`. -/
def prefixedTree (d : String) (t : Tree) : Tree :=
  t.map (fun e => (d ++ "/" ++ e.1, e.2))

/-- The input trees of the execution sandbox:
the execution-dependency tree (or, only when that field is absent, the
output-dependency tree) at the root, then every runnable dependency's tree
under a directory named after the dependency's declared identifier. -/
def sandboxInputTrees (executionDeps : Option Tree)
    (runnable : List (String × Tree)) (outputDeps : Tree) : List Tree :=
  (match executionDeps with
   | some t => [t]
   | none => [outputDeps]) ++
  runnable.map (fun nt => prefixedTree nt.1 nt.2)

/-- The sandbox tree: the conflict-failing merge of the input trees. -/
def buildSandbox (executionDeps : Option Tree)
    (runnable : List (String × Tree)) (outputDeps : Tree) :
    Except ConflictingCodegenOutput Tree :=
  mergeDigests (sandboxInputTrees executionDeps runnable outputDeps)

/-! ## ProcessExecutor output capture

Modelled from the spec: after termination every declared output file and
every declared output directory, relative to the resolved workdir, must
exist on disk; a declared path absent after execution fails the execution
with `MissingDeclaredOutput` regardless of the exit code. -/

structure ExecutionOutcome where
  exitCode : Int
  capturedPaths : List String
deriving Repr, DecidableEq

/-- Modelled from the spec: collect the declared outputs after the process
terminated with `exitCode`; `fsHas` is the post-execution disk. -/
def collectDeclaredOutputs (fsHas : String → Bool) (workdir : String)
    (outputFiles outputDirs : List String) (exitCode : Int) :
    Except String ExecutionOutcome :=
  match (outputFiles ++ outputDirs).find? (fun p => ! fsHas (joinPath workdir p)) with
  | some p => Except.error ("MissingDeclaredOutput: " ++ joinPath workdir p)
  | none =>
    Except.ok ⟨exitCode, (outputFiles ++ outputDirs).map (joinPath workdir)⟩

/-! ## `AdhocToolTimeoutField`
(`pants.backend.adhoc.target_types.AdhocToolTimeoutField`: alias `timeout`,
`default = 30`, `valid_numbers = ValidNumbers.positive_only`; the
`ValidNumbers` validation itself lives in `pants.engine.target`, not among
the sampled sources, and is modelled from the spec: the timeout must be a
positive integer). -/

def adhocToolTimeoutDefault : Int := 30

/-- Compute the timeout field's value: apply the default when the raw value
is absent, then reject non-positive values. -/
def adhocToolTimeoutComputeValue (raw : Option Int) : Except String Int :=
  let value := raw.getD adhocToolTimeoutDefault
  if 0 < value then Except.ok value else Except.error "InvalidFieldException"

/-! ## Protobuf module mapping
(`pants.backend.codegen.protobuf.python.python_protobuf_module_mapper.proto_path_to_py_module`) -/

/-- Python `str.replace` scanning: at skip count `k + 1` the character was
consumed by an earlier match; at `0`, a match of `old` emits `new` and skips
the rest of the match, else the character is kept.  Replaces every
non-overlapping occurrence left to right, as Python does for nonempty
`old`. -/
def pyReplaceScan (old new : List Char) : List Char → Nat → List Char
  | [], _ => []
  | _ :: rest, k + 1 => pyReplaceScan old new rest k
  | c :: rest, 0 =>
    if old.isPrefixOf (c :: rest) ∧ old ≠ [] then
      new ++ pyReplaceScan old new rest (old.length - 1)
    else c :: pyReplaceScan old new rest 0

/-- Python `s.replace(old, new)` for nonempty `old`. -/
def pyReplace (s old new : String) : String :=
  String.mk (pyReplaceScan old.data new.data s.data 0)

/-- `proto_path_to_py_module`: replace every occurrence of `.proto` by the
suffix, then every `/` by `.`. -/
def proto_path_to_py_module (stripped_path : String) (suffix : String) : String :=
  pyReplace (pyReplace stripped_path ".proto" suffix) "/" "."

/-! ### `export-codegen` theorems -/

theorem noConflict_singleton (t : Tree) : NoConflict [t] := by
  intro t1 h1 t2 h2 p c1 c2 hc1 hc2
  simp only [List.mem_singleton] at h1 h2
  subst h1; subst h2
  rw [hc1] at hc2; cases hc2; rfl

theorem codegenSourcesWithOutput_eq_nil (targets : List Target)
    (ios : List (String × String)) :
    codegenSourcesWithOutput targets ios = [] ↔
      ∀ tgt ∈ targets, ∀ s, tgt.sources = some s →
        ∀ io ∈ ios, io.1 ∉ s.instanceOf := by
  induction targets with
  | nil => simp [codegenSourcesWithOutput]
  | cons tgt rest ih =>
    unfold codegenSourcesWithOutput
    rw [List.append_eq_nil, ih, List.forall_mem_cons]
    cases hsrc : tgt.sources with
    | none => simp [hsrc]
    | some s =>
      simp only [hsrc, List.filterMap_eq_nil_iff, Option.some.injEq]
      constructor
      · rintro ⟨hhead, hrest⟩
        refine ⟨?_, hrest⟩
        intro s' hs' io hio
        cases hs'
        intro hmem
        have := hhead io hio
        rw [if_pos hmem] at this
        cases this
      · rintro ⟨hhead, hrest⟩
        refine ⟨?_, hrest⟩
        intro io hio
        rw [if_neg (hhead s rfl io hio)]

theorem mem_insertSorted (a x : String) (l : List String) :
    a ∈ insertSorted x l ↔ a = x ∨ a ∈ l := by
  induction l with
  | nil => simp [insertSorted]
  | cons b rest ih =>
    simp only [insertSorted]
    by_cases h : strLe x b
    · simp [h]
    · simp only [h, Bool.false_eq_true, if_false, List.mem_cons, ih]
      tauto

theorem mem_sortStrings (a : String) (l : List String) :
    a ∈ sortStrings l ↔ a ∈ l := by
  induction l with
  | nil => simp [sortStrings]
  | cons b rest ih =>
    simp only [sortStrings, List.foldr_cons, List.mem_cons]
    rw [show rest.foldr insertSorted [] = sortStrings rest from rfl] at *
    rw [mem_insertSorted, ih]

theorem mem_codegenTargetAliases (registeredTypes : List TargetType)
    (ios : List (String × String)) (a : String) :
    a ∈ codegenTargetAliases registeredTypes ios ↔
      ∃ tt ∈ registeredTypes, tt.aliasName = a ∧
        ∃ io ∈ ios, tt.hasFieldOf io.1 := by
  unfold codegenTargetAliases
  rw [mem_sortStrings, List.mem_dedup, List.mem_filterMap]
  constructor
  · rintro ⟨tt, hmem, hsome⟩
    by_cases h : ios.any (fun io => tt.hasFieldOf io.1)
    · rw [if_pos h] at hsome
      cases hsome
      rcases List.any_eq_true.mp h with ⟨io, hio, hfld⟩
      exact ⟨tt, hmem, rfl, io, hio, hfld⟩
    · rw [if_neg h] at hsome; cases hsome
  · rintro ⟨tt, hmem, rfl, io, hio, hfld⟩
    refine ⟨tt, hmem, ?_⟩
    rw [if_pos (List.any_eq_true.mpr ⟨io, hio, hfld⟩)]

/-- C1: whenever at least one target's sources field matches the input type
of an exportable generator, `export_codegen` hydrates every matching
`(sources, output_type)` pair, merges the resulting trees, writes the merged
tree under `<distribution-root>/codegen`, and exits with code 0 (stated under
the side conditions that the produced trees are maps and are
conflict-free, since a merge conflict aborts the goal instead). -/
theorem export_codegen_success (targets : List Target)
    (reqs : List GenerateSourcesRequestType) (registeredTypes : List TargetType)
    (hydrate : SourcesFieldInst → String → Tree) (dist : String)
    (hmatch : codegenSourcesWithOutput targets (exportableInputsToOutputs reqs) ≠ [])
    (hwf : ∀ t ∈ exportProducedTrees targets reqs hydrate, WfTree t)
    (hnc : NoConflict (exportProducedTrees targets reqs hydrate)) :
    export_codegen targets reqs registeredTypes hydrate dist =
      Except.ok ⟨0, some (pathJoin dist "codegen",
        (exportProducedTrees targets reqs hydrate).flatten), none⟩ := by
  unfold export_codegen
  have hne : (codegenSourcesWithOutput targets
      (exportableInputsToOutputs reqs)).isEmpty = false := by
    rw [List.isEmpty_eq_false]
    exact hmatch
  simp only [hne, Bool.false_eq_true, if_false]
  have hok := (mergeDigests_ok_iff (exportProducedTrees targets reqs hydrate) hwf).mpr hnc
  unfold exportProducedTrees at hok
  rw [hok]
  rfl

/-- Witness for C1: one matching target and one exportable generator yield a
written tree under `dist/codegen` and exit code 0. -/
theorem export_codegen_success_witness :
    export_codegen [⟨some ⟨0, ["ProtoSources"]⟩⟩]
        [⟨"ProtoSources", "PySources", true⟩] []
        (fun _ _ => [("out/a.py", "x")]) "dist" =
      Except.ok ⟨0, some ("dist/codegen", [("out/a.py", "x")]), none⟩ := by
  have h := export_codegen_success [⟨some ⟨0, ["ProtoSources"]⟩⟩]
    [⟨"ProtoSources", "PySources", true⟩] []
    (fun _ _ => [("out/a.py", "x")]) "dist"
    (by decide) (by decide) (noConflict_singleton [("out/a.py", "x")])
  exact h

/-- C6: when no exportable generator input type matches any target's sources
field, `export_codegen` hydrates nothing, writes nothing, exits with code 0,
and warns with the sorted list of registered codegen target aliases; an alias
appears in that list exactly when the registered target type has one of the
generator input fields. -/
theorem export_codegen_no_match (targets : List Target)
    (reqs : List GenerateSourcesRequestType) (registeredTypes : List TargetType)
    (hydrate : SourcesFieldInst → String → Tree) (dist : String)
    (h : ∀ tgt ∈ targets, ∀ s, tgt.sources = some s →
        ∀ io ∈ exportableInputsToOutputs reqs, io.1 ∉ s.instanceOf) :
    export_codegen targets reqs registeredTypes hydrate dist =
      Except.ok ⟨0, none,
        some (codegenTargetAliases registeredTypes (exportableInputsToOutputs reqs))⟩ ∧
    (∀ a, a ∈ codegenTargetAliases registeredTypes (exportableInputsToOutputs reqs) ↔
      ∃ tt ∈ registeredTypes, tt.aliasName = a ∧
        ∃ io ∈ exportableInputsToOutputs reqs, tt.hasFieldOf io.1) := by
  constructor
  · unfold export_codegen
    have hnil : codegenSourcesWithOutput targets (exportableInputsToOutputs reqs) = [] :=
      (codegenSourcesWithOutput_eq_nil targets (exportableInputsToOutputs reqs)).mpr h
    simp [hnil]
  · intro a
    exact mem_codegenTargetAliases registeredTypes (exportableInputsToOutputs reqs) a

/-- Witness for C6: no targets at all; the goal exits 0 with the alias of the
one registered codegen-capable target type in the diagnostic. -/
theorem export_codegen_no_match_witness :
    export_codegen [] [⟨"ProtoSources", "PySources", true⟩]
        [⟨"protobuf_sources", fun f => f == "ProtoSources"⟩]
        (fun _ _ => []) "dist" =
      Except.ok ⟨0, none,
        some (codegenTargetAliases [⟨"protobuf_sources", fun f => f == "ProtoSources"⟩]
          (exportableInputsToOutputs [⟨"ProtoSources", "PySources", true⟩]))⟩ ∧
    (∀ a, a ∈ codegenTargetAliases [⟨"protobuf_sources", fun f => f == "ProtoSources"⟩]
        (exportableInputsToOutputs [⟨"ProtoSources", "PySources", true⟩]) ↔
      ∃ tt ∈ [(⟨"protobuf_sources", fun f => f == "ProtoSources"⟩ : TargetType)],
        tt.aliasName = a ∧
          ∃ io ∈ exportableInputsToOutputs [⟨"ProtoSources", "PySources", true⟩],
            tt.hasFieldOf io.1) :=
  export_codegen_no_match [] [⟨"ProtoSources", "PySources", true⟩]
    [⟨"protobuf_sources", fun f => f == "ProtoSources"⟩] (fun _ _ => []) "dist"
    (by intro tgt htgt; exact absurd htgt (List.not_mem_nil tgt))

/-! ### BinaryResolver and toolchain theorems -/

/-- C4: a binary-path request whose search path puts the explicit extra
paths before the defaults and the defaults before the ambient `PATH`
resolves to the first candidate, in that overall order, that passes the
configured fingerprint test: the chosen path is accepted, every candidate
before it was rejected, and when no fingerprint test is configured the
chosen path is the very first candidate.  The resolver is a pure function
of the ordered search path, so reordering the explicit paths changes the
result deterministically. -/
theorem find_binary_first_match (env : ResolverEnv)
    (extra defaults ambient : List String) (name : String)
    (test : Option BinaryPathTest) (p : String)
    (h : find_binary env ⟨name, extra ++ defaults ++ ambient, test⟩ = Except.ok p) :
    candidateAccepted env ⟨name, extra ++ defaults ++ ambient, test⟩ p = true ∧
    (∃ pre post,
      candidatePaths env ⟨name, extra ++ defaults ++ ambient, test⟩ =
        pre ++ p :: post ∧
      ∀ q ∈ pre,
        candidateAccepted env ⟨name, extra ++ defaults ++ ambient, test⟩ q = false) ∧
    (test = none →
      (candidatePaths env ⟨name, extra ++ defaults ++ ambient, test⟩).head? =
        some p) := by
  unfold find_binary at h
  cases hf : (candidatePaths env ⟨name, extra ++ defaults ++ ambient, test⟩).find?
      (candidateAccepted env ⟨name, extra ++ defaults ++ ambient, test⟩) with
  | none => rw [hf] at h; cases h
  | some q =>
    rw [hf] at h
    cases h
    rcases List.find?_eq_some.mp hf with ⟨hacc, pre, post, heq, hpre⟩
    refine ⟨hacc, ⟨pre, post, heq, fun q hq => by simpa using hpre q hq⟩, ?_⟩
    intro htest
    cases pre with
    | nil => rw [heq]; rfl
    | cons a as =>
      have hrej := hpre a (List.mem_cons_self a as)
      subst htest
      simp [candidateAccepted] at hrej

/-- Witness for C4: a fake `sh` on the explicit extra path fails the
fingerprint test, so the real one on the default path is selected. -/
theorem find_binary_first_match_witness :
    candidateAccepted
        ⟨fun d n => (d == "/extra" && n == "sh") || (d == "/usr/bin" && n == "sh"),
         fun p _ => p == "/usr/bin/sh"⟩
        ⟨"sh", ["/extra"] ++ ["/usr/bin"] ++ [], some ⟨["-V"]⟩⟩ "/usr/bin/sh" = true ∧
    (∃ pre post,
      candidatePaths
          ⟨fun d n => (d == "/extra" && n == "sh") || (d == "/usr/bin" && n == "sh"),
           fun p _ => p == "/usr/bin/sh"⟩
          ⟨"sh", ["/extra"] ++ ["/usr/bin"] ++ [], some ⟨["-V"]⟩⟩ =
        pre ++ "/usr/bin/sh" :: post ∧
      ∀ q ∈ pre,
        candidateAccepted
            ⟨fun d n => (d == "/extra" && n == "sh") || (d == "/usr/bin" && n == "sh"),
             fun p _ => p == "/usr/bin/sh"⟩
            ⟨"sh", ["/extra"] ++ ["/usr/bin"] ++ [], some ⟨["-V"]⟩⟩ q = false) ∧
    (some (⟨["-V"]⟩ : BinaryPathTest) = none →
      (candidatePaths
          ⟨fun d n => (d == "/extra" && n == "sh") || (d == "/usr/bin" && n == "sh"),
           fun p _ => p == "/usr/bin/sh"⟩
          ⟨"sh", ["/extra"] ++ ["/usr/bin"] ++ [], some ⟨["-V"]⟩⟩).head? =
        some "/usr/bin/sh") :=
  find_binary_first_match
    ⟨fun d n => (d == "/extra" && n == "sh") || (d == "/usr/bin" && n == "sh"),
     fun p _ => p == "/usr/bin/sh"⟩
    ["/extra"] ["/usr/bin"] [] "sh" (some ⟨["-V"]⟩) "/usr/bin/sh" (by rfl)

/-- C3: `find_rustup` resolves the toolchain manager via the ordinary binary
resolver with a `-V` fingerprint test over the configured search paths, and
`rust_binary_path` then parses the manager's stripped stdout as a path and
performs a second resolver pass whose search path is exactly that path's
containing directory and whose requested name is that path's basename; the
resolved binary is the result of that second pass. -/
theorem rust_toolchain_resolution_structure (env : RustEnv) (binary : String) :
    find_rustup env =
      find_binary env.resolver ⟨"rustup", env.rustupSearchPaths, some ⟨["-V"]⟩⟩ ∧
    (∀ rustupPath, find_rustup env = Except.ok rustupPath →
      rust_binary_path env binary =
        find_binary env.resolver
          ⟨pyBasename ((env.whichStdout rustupPath env.toolchain binary).trim),
           [pyDirname ((env.whichStdout rustupPath env.toolchain binary).trim)],
           none⟩) := by
  refine ⟨rfl, ?_⟩
  intro rustupPath hr
  unfold rust_binary_path
  rw [hr]

/-- Witness for C3: rustup found at `/usr/bin/rustup`, and the manager's
stdout ` /tc/bin/cargo\n` makes the second pass search exactly `/tc/bin`
for `cargo`. -/
theorem rust_toolchain_resolution_structure_witness :
    rust_binary_path
        ⟨⟨fun d n => (d == "/usr/bin" && n == "rustup") || (d == "/tc/bin" && n == "cargo"),
          fun _ _ => true⟩,
         ["/usr/bin"], "stable", fun _ _ _ => " /tc/bin/cargo\n"⟩ "cargo" =
      find_binary
        ⟨fun d n => (d == "/usr/bin" && n == "rustup") || (d == "/tc/bin" && n == "cargo"),
         fun _ _ => true⟩
        ⟨pyBasename ((" /tc/bin/cargo\n" : String).trim),
         [pyDirname ((" /tc/bin/cargo\n" : String).trim)], none⟩ :=
  (rust_toolchain_resolution_structure
    ⟨⟨fun d n => (d == "/usr/bin" && n == "rustup") || (d == "/tc/bin" && n == "cargo"),
      fun _ _ => true⟩,
     ["/usr/bin"], "stable", fun _ _ _ => " /tc/bin/cargo\n"⟩ "cargo").2
    "/usr/bin/rustup" (by rfl)

/-! ### Workdir / output-root resolution theorems -/

theorem normSegs_none_iff (segs : List String) (acc : List String) :
    normSegs segs acc = none ↔
      ∃ n, (acc.length : Int) + ((segs.take n).map segValue).sum < 0 := by
  induction segs generalizing acc with
  | nil =>
    simp only [normSegs, List.take_nil, List.map_nil, List.sum_nil, add_zero]
    constructor
    · intro h; cases h
    · rintro ⟨n, hn⟩
      have : (0 : Int) ≤ acc.length := Int.natCast_nonneg acc.length
      omega
  | cons s rest ih =>
    by_cases hdd : s = ".."
    · subst hdd
      cases acc with
      | nil =>
        constructor
        · intro _
          refine ⟨1, ?_⟩
          simp [segValue]
        · intro _
          simp [normSegs]
      | cons a t =>
        have hstep : normSegs (".." :: rest) (a :: t) = normSegs rest t := by
          simp [normSegs]
        rw [hstep, ih t]
        constructor
        · rintro ⟨m, hm⟩
          refine ⟨m + 1, ?_⟩
          simp only [List.take_succ_cons, List.map_cons, List.sum_cons, segValue,
            if_pos rfl, List.length_cons]
          push_cast
          omega
        · rintro ⟨n, hn⟩
          cases n with
          | zero =>
            simp only [List.take_zero, List.map_nil, List.sum_nil, add_zero] at hn
            have : (0 : Int) ≤ (a :: t).length := Int.natCast_nonneg _
            omega
          | succ m =>
            refine ⟨m, ?_⟩
            simp only [List.take_succ_cons, List.map_cons, List.sum_cons, segValue,
              if_pos rfl, List.length_cons] at hn
            push_cast at hn
            omega
    · by_cases hdot : s = "." ∨ s = ""
      · have hstep : normSegs (s :: rest) acc = normSegs rest acc := by
          simp [normSegs, hdd, hdot]
        have hval : segValue s = 0 := by simp [segValue, hdd, hdot]
        rw [hstep, ih acc]
        constructor
        · rintro ⟨m, hm⟩
          refine ⟨m + 1, ?_⟩
          simp only [List.take_succ_cons, List.map_cons, List.sum_cons, hval]
          omega
        · rintro ⟨n, hn⟩
          cases n with
          | zero =>
            simp only [List.take_zero, List.map_nil, List.sum_nil, add_zero] at hn
            have : (0 : Int) ≤ acc.length := Int.natCast_nonneg _
            omega
          | succ m =>
            refine ⟨m, ?_⟩
            simp only [List.take_succ_cons, List.map_cons, List.sum_cons, hval] at hn
            omega
      · have hstep : normSegs (s :: rest) acc = normSegs rest (s :: acc) := by
          simp [normSegs, hdd, hdot]
        have hval : segValue s = 1 := by simp [segValue, hdd, hdot]
        rw [hstep, ih (s :: acc)]
        constructor
        · rintro ⟨m, hm⟩
          refine ⟨m + 1, ?_⟩
          simp only [List.take_succ_cons, List.map_cons, List.sum_cons, hval]
          simp only [List.length_cons] at hm
          push_cast at hm ⊢
          omega
        · rintro ⟨n, hn⟩
          cases n with
          | zero =>
            simp only [List.take_zero, List.map_nil, List.sum_nil, add_zero] at hn
            have : (0 : Int) ≤ acc.length := Int.natCast_nonneg _
            omega
          | succ m =>
            refine ⟨m, ?_⟩
            simp only [List.take_succ_cons, List.map_cons, List.sum_cons, hval] at hn
            simp only [List.length_cons]
            push_cast at hn ⊢
            omega

/-- C5: workdir and root-output-directory resolution is the pure function
`parseRelativeDirectory` of the raw string, the BUILD file's directory and
the build root (represented as the empty relative path): `.` resolves to
the BUILD dir, `./rest` to the BUILD dir joined with the rest, the empty
string and `/` to the build root, `/rest` to the root joined with the rest,
and anything else to the root joined with the whole string; a resolved path
whose `..` segments escape the build root is rejected with
`PathEscapesBuildRoot`, while `..` segments that stay under the root are
permitted. -/
theorem workdir_resolution_spec :
    (∀ b, parseRelativeDirectory "." b = b) ∧
    (∀ s b, parseRelativeDirectory ("./" ++ s) b = joinPath b s) ∧
    (∀ b, parseRelativeDirectory "" b = "") ∧
    (∀ b, parseRelativeDirectory "/" b = "") ∧
    (∀ s b, s ≠ "" → parseRelativeDirectory ("/" ++ s) b = s) ∧
    (∀ p b, p ≠ "." → strStartsWith p "./" = false → p ≠ "" → p ≠ "/" →
      strStartsWith p "/" = false → parseRelativeDirectory p b = p) ∧
    (∀ p b, resolveWorkdir p b = Except.error "PathEscapesBuildRoot" ↔
      EscapesRoot (splitSegs (parseRelativeDirectory p b))) ∧
    (∀ p b r, resolveWorkdir p b = Except.ok r →
      r = parseRelativeDirectory p b ∧
      ¬ EscapesRoot (splitSegs (parseRelativeDirectory p b))) := by
  refine ⟨?_, ?_, ?_, ?_, ?_, ?_, ?_, ?_⟩
  · intro b
    simp [parseRelativeDirectory]
  · intro s b
    have hne : ("./" ++ s) ≠ "." := by
      intro h
      have h2 := congrArg String.data h
      rw [String.data_append] at h2
      simp at h2
    have hsw : strStartsWith ("./" ++ s) "./" = true := by
      simp [strStartsWith, String.data_append, List.isPrefixOf]
    unfold parseRelativeDirectory
    rw [if_neg hne, if_pos hsw]
    rw [show strDrop ("./" ++ s) 2 = s from rfl]
  · intro b
    simp [parseRelativeDirectory, strStartsWith, List.isPrefixOf]
  · intro b
    simp [parseRelativeDirectory, strStartsWith, List.isPrefixOf]
  · intro s b hs
    have h1 : ("/" ++ s) ≠ "." := by
      intro h
      have h2 := congrArg String.data h
      rw [String.data_append] at h2
      simp at h2
    have h2 : strStartsWith ("/" ++ s) "./" = false := by
      simp [strStartsWith, String.data_append, List.isPrefixOf]
    have h3 : ¬ (("/" ++ s) = "" ∨ ("/" ++ s) = "/") := by
      rintro (h | h)
      · have hd := congrArg String.data h
        rw [String.data_append] at hd
        simp at hd
      · have hd := congrArg String.data h
        rw [String.data_append] at hd
        simp at hd
        exact hs (by cases s; simp_all)
    have h4 : strStartsWith ("/" ++ s) "/" = true := by
      simp [strStartsWith, String.data_append, List.isPrefixOf]
    unfold parseRelativeDirectory
    rw [if_neg h1, if_neg (by rw [h2]; exact Bool.false_ne_true), if_neg h3,
      if_pos h4]
    rw [show strDrop ("/" ++ s) 1 = s from rfl]
  · intro p b hp hsw hpe hps hsl
    unfold parseRelativeDirectory
    rw [if_neg hp, if_neg (by rw [hsw]; exact Bool.false_ne_true),
      if_neg (by rintro (h | h); exact hpe h; exact hps h),
      if_neg (by rw [hsl]; exact Bool.false_ne_true)]
  · intro p b
    unfold resolveWorkdir
    cases hn : normSegs (splitSegs (parseRelativeDirectory p b)) [] with
    | none =>
      simp only [hn]
      constructor
      · intro _
        have := (normSegs_none_iff (splitSegs (parseRelativeDirectory p b)) []).mp hn
        simpa [EscapesRoot] using this
      · intro _; trivial
    | some l =>
      simp only [hn]
      constructor
      · intro h; cases h
      · intro hes
        exfalso
        have hnone : normSegs (splitSegs (parseRelativeDirectory p b)) [] = none :=
          (normSegs_none_iff (splitSegs (parseRelativeDirectory p b)) []).mpr
            (by simpa [EscapesRoot] using hes)
        rw [hn] at hnone
        cases hnone
  · intro p b r h
    simp only [resolveWorkdir] at h
    cases hn : normSegs (splitSegs (parseRelativeDirectory p b)) [] with
    | none => rw [hn] at h; cases h
    | some l =>
      rw [hn] at h
      cases h
      refine ⟨rfl, ?_⟩
      intro hes
      have hnone : normSegs (splitSegs (parseRelativeDirectory p b)) [] = none :=
        (normSegs_none_iff (splitSegs (parseRelativeDirectory p b)) []).mpr
          (by simpa [EscapesRoot] using hes)
      rw [hn] at hnone
      cases hnone

/-- Witness for C5: `/x` resolves to `x`, a bare relative path resolves to
itself under the build root, `./sub` resolves under the BUILD dir, and a
leading `..` escapes the build root and is rejected. -/
theorem workdir_resolution_spec_witness :
    parseRelativeDirectory ("/" ++ "x") "b" = "x" ∧
    parseRelativeDirectory "sub/dir" "b" = "sub/dir" ∧
    parseRelativeDirectory ("./" ++ "sub") "a/b" = joinPath "a/b" "sub" ∧
    resolveWorkdir "../x" "b" = Except.error "PathEscapesBuildRoot" := by
  obtain ⟨-, hdot, -, -, hslash, hother, hescape, -⟩ := workdir_resolution_spec
  refine ⟨hslash "x" "b" (by decide), ?_, hdot "sub" "a/b", ?_⟩
  · exact hother "sub/dir" "b" (by decide) (by decide) (by decide) (by decide) (by decide)
  · refine (hescape "../x" "b").mpr ?_
    refine ⟨1, ?_⟩
    decide

/-! ### Sandbox composition, output capture, timeout, protobuf modules -/

/-- C7: the execution sandbox's input trees are the execution-dependency
tree at the sandbox root plus each runnable dependency's tree under a
directory named after the dependency's declared identifier; the
output-dependency tree does not influence the sandbox when the
execution-dependencies field is present (even with an empty tree), and is
merged at the root exactly when that field is absent. -/
theorem sandbox_tree_composition (t : Tree) (runnable : List (String × Tree))
    (o o2 : Tree) :
    sandboxInputTrees (some t) runnable o =
      t :: runnable.map (fun nt => prefixedTree nt.1 nt.2) ∧
    sandboxInputTrees (some t) runnable o =
      sandboxInputTrees (some t) runnable o2 ∧
    sandboxInputTrees none runnable o =
      o :: runnable.map (fun nt => prefixedTree nt.1 nt.2) ∧
    (∀ tr ∈ sandboxInputTrees (some t) runnable o,
      tr = t ∨ ∃ nt ∈ runnable, tr = prefixedTree nt.1 nt.2) := by
  refine ⟨rfl, rfl, rfl, ?_⟩
  intro tr htr
  simp only [sandboxInputTrees, List.singleton_append, List.mem_cons,
    List.mem_map] at htr
  rcases htr with rfl | ⟨nt, hnt, hev⟩
  · exact Or.inl rfl
  · exact Or.inr ⟨nt, hnt, hev.symm⟩

/-- Witness for C7: one runnable dependency named `tool` lands under
`tool/`, the execution tree stays at the root, and the output tree is
ignored when execution dependencies are specified. -/
theorem sandbox_tree_composition_witness :
    sandboxInputTrees (some [("f", "1")]) [("tool", [("bin", "2")])] [("g", "3")] =
      [[("f", "1")], [("tool/bin", "2")]] ∧
    ([("tool/bin", "2")] = [("f", "1")] ∨
      ∃ nt ∈ [("tool", [("bin", "2")])],
        [("tool/bin", "2")] = prefixedTree nt.1 nt.2) := by
  have h := sandbox_tree_composition [("f", "1")] [("tool", [("bin", "2")])]
    [("g", "3")] [("x", "9")]
  exact ⟨by decide, h.2.2.2 [("tool/bin", "2")] (by decide)⟩

/-- C8: after the process terminates, every declared output file and
directory (joined to the resolved workdir) must exist on disk: a missing
declared path makes output collection fail with `MissingDeclaredOutput`
naming that path — for every exit code, including 0 — and collection
succeeds exactly when all declared paths exist. -/
theorem missing_declared_output (fsHas : String → Bool) (workdir : String)
    (files dirs : List String) (code : Int) :
    (∀ e, collectDeclaredOutputs fsHas workdir files dirs code = Except.error e →
      ∃ p ∈ files ++ dirs, fsHas (joinPath workdir p) = false ∧
        e = "MissingDeclaredOutput: " ++ joinPath workdir p) ∧
    ((∃ p ∈ files ++ dirs, fsHas (joinPath workdir p) = false) →
      ∃ e, collectDeclaredOutputs fsHas workdir files dirs code = Except.error e) ∧
    ((∀ p ∈ files ++ dirs, fsHas (joinPath workdir p) = true) →
      collectDeclaredOutputs fsHas workdir files dirs code =
        Except.ok ⟨code, (files ++ dirs).map (joinPath workdir)⟩) := by
  refine ⟨?_, ?_, ?_⟩
  · intro e he
    unfold collectDeclaredOutputs at he
    cases hf : (files ++ dirs).find? (fun p => ! fsHas (joinPath workdir p)) with
    | none => rw [hf] at he; cases he
    | some p =>
      rw [hf] at he
      cases he
      have hmem := List.mem_of_find?_eq_some hf
      have hp := List.find?_some hf
      exact ⟨p, hmem, by simpa using hp, rfl⟩
  · rintro ⟨p, hmem, hmiss⟩
    unfold collectDeclaredOutputs
    cases hf : (files ++ dirs).find? (fun p => ! fsHas (joinPath workdir p)) with
    | some q => exact ⟨_, rfl⟩
    | none =>
      exfalso
      have := List.find?_eq_none.mp hf p hmem
      simp [hmiss] at this
  · intro hall
    unfold collectDeclaredOutputs
    have hf : (files ++ dirs).find? (fun p => ! fsHas (joinPath workdir p)) = none :=
      List.find?_eq_none.mpr (fun p hp => by simp [hall p hp])
    rw [hf]

/-- Witness for C8: a declared `out.txt` the process never created fails
collection with `MissingDeclaredOutput` even though the exit code is 0. -/
theorem missing_declared_output_witness :
    ∃ e, collectDeclaredOutputs (fun _ => false) "w" ["out.txt"] [] 0 =
      Except.error e :=
  (missing_declared_output (fun _ => false) "w" ["out.txt"] [] 0).2.1
    ⟨"out.txt", by decide, rfl⟩

/-- C9: the ad-hoc tool timeout defaults to 30 seconds when unspecified and
accepts exactly the positive values: zero and negative timeouts are
rejected at field validation. -/
theorem adhoc_tool_timeout_spec :
    adhocToolTimeoutComputeValue none = Except.ok 30 ∧
    (∀ v, 0 < v → adhocToolTimeoutComputeValue (some v) = Except.ok v) ∧
    (∀ v, v ≤ 0 → adhocToolTimeoutComputeValue (some v) =
      Except.error "InvalidFieldException") := by
  refine ⟨rfl, ?_, ?_⟩
  · intro v hv
    simp only [adhocToolTimeoutComputeValue, Option.getD_some]
    rw [if_pos hv]
  · intro v hv
    simp only [adhocToolTimeoutComputeValue, Option.getD_some]
    rw [if_neg (by omega)]

/-- Witness for C9: 5 is accepted, 0 and -3 are rejected. -/
theorem adhoc_tool_timeout_spec_witness :
    adhocToolTimeoutComputeValue (some 5) = Except.ok 5 ∧
    adhocToolTimeoutComputeValue (some 0) = Except.error "InvalidFieldException" ∧
    adhocToolTimeoutComputeValue (some (-3)) = Except.error "InvalidFieldException" := by
  obtain ⟨-, hpos, hnonpos⟩ := adhoc_tool_timeout_spec
  exact ⟨hpos 5 (by decide), hnonpos 0 (by decide), hnonpos (-3) (by decide)⟩

/-- C10: `proto_path_to_py_module` replaces every occurrence of `.proto`
by the suffix and then every `/` by `.`; in particular a `.proto` inside a
directory-name component is replaced too, not only the final extension. -/
theorem proto_path_to_py_module_spec :
    (∀ p s, proto_path_to_py_module p s =
      pyReplace (pyReplace p ".proto" s) "/" ".") ∧
    proto_path_to_py_module "a.proto/b.proto" "_pb2" = "a_pb2.b_pb2" ∧
    proto_path_to_py_module "dir/f.proto" "_pb2" = "dir.f_pb2" ∧
    proto_path_to_py_module "f.proto" "_pb2_grpc" = "f_pb2_grpc" :=
  ⟨fun _ _ => rfl, by decide, by decide, by decide⟩

end Pants
